import Mathlib

/-!
# DMclean-tool: verification of the analysis pipeline and judgment engine

Shallow embedding of `src/main.js` (a 4-lane rhythm-game chart generator
and player).  Times are modelled as rationals, scores and combos as
naturals.  The embedding follows the source line by line; the few places
where the provided source file ends before a helper function's body
(`buildBeatGrid`) are modelled from the specification and marked as such.
-/

namespace DMclean

/-- A chart note: time in seconds and lane in 0..3 (src/main.js line 37). -/
structure Note where
  time : ℚ
  lane : ℕ
deriving DecidableEq, Repr

/-- The mutable player state of src/main.js lines 38-46: `notes`, `score`,
`combo`, `idxNextNote` and the `playing` flag. -/
structure GameState where
  notes : List Note
  score : ℕ
  combo : ℕ
  idxNextNote : ℕ
  playing : Bool
deriving DecidableEq, Repr

/-! ## Judgment engine (src/main.js lines 199-230, `handleHit`) -/

/-- The best-note scan of `handleHit` (lines 208-218): starting at index
`i`, skip notes of another lane; for a matching note update the running
best `(bestIdx, bestDiff)` when `|n.time - now| < bestDiff`, and stop the
scan after a matching note with `n.time - now > missWindow` (0.30).
The accumulator carries the note together with its index: the source
re-reads `notes[bestIdx]` at line 220, which is the same note because the
list is not modified during the scan. -/
def findBestAux (lane : ℕ) (now : ℚ) :
    List Note → ℕ → Option (ℕ × Note) → ℚ → Option (ℕ × Note) × ℚ
  | [], _, bo, bd => (bo, bd)
  | n :: rest, i, bo, bd =>
    if n.lane ≠ lane then findBestAux lane now rest (i+1) bo bd
    else
      let acc := if |n.time - now| < bd then (some (i, n), |n.time - now|) else (bo, bd)
      if 3/10 < n.time - now then acc else findBestAux lane now rest (i+1) acc.1 acc.2

/-- The hit handler `handleHit(lane)` (src/main.js lines 199-230) at playback time `now`:
scan from `idxNextNote` for the best same-lane note, then classify:
`d ≤ 0.08` Perfect (+1000, combo+1, splice), `d ≤ 0.18` Good (+500,
combo+1, splice), otherwise combo reset; no best note found resets combo. -/
def handleHit (s : GameState) (lane : ℕ) (now : ℚ) : GameState :=
  match (findBestAux lane now (s.notes.drop s.idxNextNote) s.idxNextNote none 999).1 with
  | none => { s with combo := 0 }
  | some (i, n) =>
    if |n.time - now| ≤ 8/100 then
      { s with score := s.score + 1000, combo := s.combo + 1,
               notes := s.notes.eraseIdx i }
    else if |n.time - now| ≤ 18/100 then
      { s with score := s.score + 500, combo := s.combo + 1,
               notes := s.notes.eraseIdx i }
    else
      { s with combo := 0 }

/-- The `startBtn` click handler, judgment-relevant effects (src/main.js
line 175): `score = 0; combo = 0; idxNextNote = 0;` and `playing = true`. -/
def startState (s : GameState) : GameState :=
  { s with score := 0, combo := 0, idxNextNote := 0, playing := true }

/-- The `stopBtn` click handler (src/main.js lines 179-182): only stops the
audio source and sets `playing = false`; notes, score, combo and
`idxNextNote` are left as they are. -/
def stopState (s : GameState) : GameState :=
  { s with playing := false }

/-- The scan either leaves the accumulator unchanged or selects a
same-lane note `n` of the scanned segment, at its real position `k + j`,
carrying its true distance `|n.time - now|`, which strictly improves on
the incoming bound.  Holds for arbitrary (even unsorted) charts. -/
theorem findBestAux_sel (lane : ℕ) (now : ℚ) :
    ∀ (l : List Note) (k : ℕ) (bo : Option (ℕ × Note)) (bd : ℚ),
      (findBestAux lane now l k bo bd).2 ≤ bd ∧
      (((findBestAux lane now l k bo bd).1 = bo ∧
          (findBestAux lane now l k bo bd).2 = bd) ∨
        (∃ j n, l[j]? = some n ∧
          (findBestAux lane now l k bo bd).1 = some (k + j, n) ∧
          n.lane = lane ∧ (findBestAux lane now l k bo bd).2 = |n.time - now| ∧
          (findBestAux lane now l k bo bd).2 < bd)) := by
  intro l
  induction l with
  | nil => intro k bo bd; simp [findBestAux]
  | cons n rest ih =>
    intro k bo bd
    by_cases hl : n.lane ≠ lane
    · rw [show findBestAux lane now (n :: rest) k bo bd
            = findBestAux lane now rest (k+1) bo bd by simp [findBestAux, hl]]
      obtain ⟨h1, h2⟩ := ih (k+1) bo bd
      refine ⟨h1, ?_⟩
      rcases h2 with h | ⟨j, m, hj, hr, hlm, hd, hlt⟩
      · exact Or.inl h
      · refine Or.inr ⟨j+1, m, by simpa using hj, ?_, hlm, hd, hlt⟩
        have hk : k + 1 + j = k + (j + 1) := by omega
        rw [hr, hk]
    · push_neg at hl
      by_cases hacc : |n.time - now| < bd
      · by_cases hbr : 3/10 < n.time - now
        · rw [show findBestAux lane now (n :: rest) k bo bd
                = (some (k, n), |n.time - now|) by
              simp [findBestAux, hl, hacc, hbr]]
          exact ⟨le_of_lt hacc,
            Or.inr ⟨0, n, by simp, by simp, hl, rfl, hacc⟩⟩
        · rw [show findBestAux lane now (n :: rest) k bo bd
                = findBestAux lane now rest (k+1) (some (k, n)) |n.time - now| by
              simp [findBestAux, hl, hacc, hbr]]
          obtain ⟨h1, h2⟩ := ih (k+1) (some (k, n)) |n.time - now|
          refine ⟨le_trans h1 (le_of_lt hacc), ?_⟩
          rcases h2 with ⟨ho, hd⟩ | ⟨j, m, hj, hr, hlm, hd, hlt⟩
          · exact Or.inr ⟨0, n, by simp, by simpa using ho, hl, hd, by rw [hd]; exact hacc⟩
          · refine Or.inr ⟨j+1, m, by simpa using hj, ?_, hlm, hd, lt_trans hlt hacc⟩
            have hk : k + 1 + j = k + (j + 1) := by omega
            rw [hr, hk]
      · by_cases hbr : 3/10 < n.time - now
        · rw [show findBestAux lane now (n :: rest) k bo bd
                = (bo, bd) by simp [findBestAux, hl, hacc, hbr]]
          exact ⟨le_refl _, Or.inl ⟨rfl, rfl⟩⟩
        · rw [show findBestAux lane now (n :: rest) k bo bd
                = findBestAux lane now rest (k+1) bo bd by
              simp [findBestAux, hl, hacc, hbr]]
          obtain ⟨h1, h2⟩ := ih (k+1) bo bd
          refine ⟨h1, ?_⟩
          rcases h2 with h | ⟨j, m, hj, hr, hlm, hd, hlt⟩
          · exact Or.inl h
          · refine Or.inr ⟨j+1, m, by simpa using hj, ?_, hlm, hd, hlt⟩
            have hk : k + 1 + j = k + (j + 1) := by omega
            rw [hr, hk]

/-- On a time-sorted segment the scan's final distance is a lower bound on
the distance of every same-lane note of the segment: the early `break` at
`n.time - now > 0.30` never skips a closer note. -/
theorem findBestAux_min (lane : ℕ) (now : ℚ) :
    ∀ (l : List Note) (k : ℕ) (bo : Option (ℕ × Note)) (bd : ℚ),
      l.Sorted (fun a b => a.time ≤ b.time) → bd ≤ 999 →
      ∀ m ∈ l, m.lane = lane →
        (findBestAux lane now l k bo bd).2 ≤ |m.time - now| := by
  intro l
  induction l with
  | nil => intro k bo bd _ _ m hm; exact absurd hm (List.not_mem_nil m)
  | cons n rest ih =>
    intro k bo bd hsort hbd m hm hml
    obtain ⟨hn, hrest⟩ := List.sorted_cons.mp hsort
    by_cases hl : n.lane ≠ lane
    · rw [show findBestAux lane now (n :: rest) k bo bd
            = findBestAux lane now rest (k+1) bo bd by simp [findBestAux, hl]]
      rcases List.mem_cons.mp hm with rfl | hm'
      · exact absurd hml hl
      · exact ih (k+1) bo bd hrest hbd m hm' hml
    · push_neg at hl
      by_cases hacc : |n.time - now| < bd
      · by_cases hbr : 3/10 < n.time - now
        · rw [show findBestAux lane now (n :: rest) k bo bd
                = (some (k, n), |n.time - now|) by
              simp [findBestAux, hl, hacc, hbr]]
          rcases List.mem_cons.mp hm with rfl | hm'
          · exact le_refl _
          · have h1 : n.time ≤ m.time := hn m hm'
            have h2 : m.time - now ≤ |m.time - now| := le_abs_self _
            have h3 : |n.time - now| = n.time - now := abs_of_pos (by linarith)
            linarith
        · rw [show findBestAux lane now (n :: rest) k bo bd
                = findBestAux lane now rest (k+1) (some (k, n)) |n.time - now| by
              simp [findBestAux, hl, hacc, hbr]]
          rcases List.mem_cons.mp hm with rfl | hm'
          · exact le_trans (findBestAux_sel lane now rest (k+1) (some (k, m))
              |m.time - now|).1 (le_refl _)
          · exact ih (k+1) (some (k, n)) |n.time - now| hrest
              (by linarith [abs_nonneg (n.time - now)]) m hm' hml
      · by_cases hbr : 3/10 < n.time - now
        · rw [show findBestAux lane now (n :: rest) k bo bd
                = (bo, bd) by simp [findBestAux, hl, hacc, hbr]]
          rcases List.mem_cons.mp hm with rfl | hm'
          · exact not_lt.mp hacc
          · have h1 : n.time ≤ m.time := hn m hm'
            have h2 : m.time - now ≤ |m.time - now| := le_abs_self _
            have h3 : |n.time - now| = n.time - now := abs_of_pos (by linarith)
            have h4 : bd ≤ |n.time - now| := not_lt.mp hacc
            linarith
        · rw [show findBestAux lane now (n :: rest) k bo bd
                = findBestAux lane now rest (k+1) bo bd by
              simp [findBestAux, hl, hacc, hbr]]
          rcases List.mem_cons.mp hm with rfl | hm'
          · exact le_trans (findBestAux_sel lane now rest (k+1) bo bd).1 (not_lt.mp hacc)
          · exact ih (k+1) bo bd hrest hbd m hm' hml

theorem handleHit_eq_none (s : GameState) (lane : ℕ) (now : ℚ)
    (h : (findBestAux lane now (s.notes.drop s.idxNextNote)
            s.idxNextNote none 999).1 = none) :
    handleHit s lane now = { s with combo := 0 } := by
  unfold handleHit; rw [h]

theorem handleHit_eq_some (s : GameState) (lane : ℕ) (now : ℚ) (i : ℕ) (n : Note)
    (h : (findBestAux lane now (s.notes.drop s.idxNextNote)
            s.idxNextNote none 999).1 = some (i, n)) :
    handleHit s lane now =
      if |n.time - now| ≤ 8/100 then
        { s with score := s.score + 1000, combo := s.combo + 1,
                 notes := s.notes.eraseIdx i }
      else if |n.time - now| ≤ 18/100 then
        { s with score := s.score + 500, combo := s.combo + 1,
                 notes := s.notes.eraseIdx i }
      else
        { s with combo := 0 } := by
  unfold handleHit; rw [h]

/-- C1. For every lane-press event: when the suffix of the chart from
the cursor is time-sorted (as synthesized charts are), if no same-lane
note exists there the event is a Miss (combo reset, nothing consumed);
otherwise, with `d` the minimal same-lane distance `|note.time - now|`:
`d ≤ 0.08` gives Perfect (+1000 score, +1 combo, best note removed),
`0.08 < d ≤ 0.18` gives Good (+500 score, +1 combo, best note removed),
and `d > 0.18` gives a Miss (combo reset, no note removed). -/
theorem handleHit_judgment (s : GameState) (lane : ℕ) (now : ℚ)
    (hsort : (s.notes.drop s.idxNextNote).Sorted (fun a b => a.time ≤ b.time)) :
    ((∀ n ∈ s.notes.drop s.idxNextNote, n.lane ≠ lane) →
        handleHit s lane now = { s with combo := 0 }) ∧
    (∀ m ∈ s.notes.drop s.idxNextNote, m.lane = lane →
      (∀ n ∈ s.notes.drop s.idxNextNote, n.lane = lane →
          |m.time - now| ≤ |n.time - now|) →
      ((|m.time - now| ≤ 8/100 →
          ∃ i nn, s.idxNextNote ≤ i ∧ s.notes[i]? = some nn ∧ nn.lane = lane ∧
            |nn.time - now| = |m.time - now| ∧
            handleHit s lane now =
              { s with score := s.score + 1000, combo := s.combo + 1,
                       notes := s.notes.eraseIdx i }) ∧
       (8/100 < |m.time - now| → |m.time - now| ≤ 18/100 →
          ∃ i nn, s.idxNextNote ≤ i ∧ s.notes[i]? = some nn ∧ nn.lane = lane ∧
            |nn.time - now| = |m.time - now| ∧
            handleHit s lane now =
              { s with score := s.score + 500, combo := s.combo + 1,
                       notes := s.notes.eraseIdx i }) ∧
       (18/100 < |m.time - now| →
          handleHit s lane now = { s with combo := 0 }))) := by
  obtain ⟨hP1, hP3⟩ :=
    findBestAux_sel lane now (s.notes.drop s.idxNextNote) s.idxNextNote none 999
  have hmin := findBestAux_min lane now (s.notes.drop s.idxNextNote)
    s.idxNextNote none 999 hsort (le_refl 999)
  constructor
  · intro hnol
    rcases hP3 with ⟨ho, _⟩ | ⟨j, nn, hj, _, hnl, _, _⟩
    · exact handleHit_eq_none s lane now ho
    · exact absurd hnl (hnol nn (by
        obtain ⟨hlt, rfl⟩ := List.getElem?_eq_some.mp hj
        exact List.getElem_mem hlt))
  · intro m hm hml hminm
    rcases hP3 with ⟨ho, hd⟩ | ⟨j, nn, hj, hr1, hnl, hdq, _⟩
    · -- the scan found nothing, so the minimal distance is at least 999
      have h999 : (999:ℚ) ≤ |m.time - now| := hd ▸ hmin m hm hml
      refine ⟨fun h8 => absurd h8 (by linarith), fun h8 _ => absurd h8 (by linarith),
        fun _ => handleHit_eq_none s lane now ho⟩
    · have hnnmem : nn ∈ s.notes.drop s.idxNextNote := by
        obtain ⟨hlt, rfl⟩ := List.getElem?_eq_some.mp hj
        exact List.getElem_mem hlt
      have heq : |nn.time - now| = |m.time - now| :=
        le_antisymm (by rw [← hdq]; exact hmin m hm hml) (hminm nn hnnmem hnl)
      have hjn : s.notes[s.idxNextNote + j]? = some nn := by
        rw [← List.getElem?_drop]; exact hj
      refine ⟨fun h8 => ⟨s.idxNextNote + j, nn, Nat.le_add_right _ _, hjn, hnl, heq, ?_⟩,
        fun h8l h18 => ⟨s.idxNextNote + j, nn, Nat.le_add_right _ _, hjn, hnl, heq, ?_⟩,
        fun h18 => ?_⟩
      · rw [handleHit_eq_some s lane now _ nn hr1, if_pos (by rw [heq]; exact h8)]
      · rw [handleHit_eq_some s lane now _ nn hr1,
          if_neg (by rw [heq]; exact not_le.mpr h8l), if_pos (by rw [heq]; exact h18)]
      · rw [handleHit_eq_some s lane now _ nn hr1,
          if_neg (by rw [heq]; exact not_le.mpr (by linarith)),
          if_neg (by rw [heq]; exact not_le.mpr h18)]

/-- Witness for C1: a press on lane 0 exactly at the single note's time,
entering with score 7 and combo 5, is judged Perfect: score 1007, combo 6,
note consumed. -/
theorem handleHit_judgment_witness :
    handleHit ⟨[⟨(1:ℚ)/2, 0⟩], 7, 5, 0, true⟩ 0 (1/2)
      = ⟨[], 1007, 6, 0, true⟩ := by
  obtain ⟨-, h2⟩ := handleHit_judgment ⟨[⟨(1:ℚ)/2, 0⟩], 7, 5, 0, true⟩ 0 (1/2)
    (by simp)
  obtain ⟨h8, -, -⟩ := h2 ⟨(1:ℚ)/2, 0⟩ (by simp) rfl
    (by intro n hn _
        simp only [List.drop_zero, List.mem_singleton] at hn
        subst hn
        exact le_refl _)
  obtain ⟨i, nn, -, hi, -, -, hh⟩ := h8 (by norm_num)
  obtain ⟨hlt, rfl⟩ := List.getElem?_eq_some.mp hi
  simp only [List.length_singleton] at hlt
  interval_cases i
  · rw [hh]; simp [List.eraseIdx]

/-- C6, amended. Frame effect of one press event: either only the
combo changes (reset to 0, score and chart untouched), or the event is a
hit: the combo and the score both increase (by 1 and by 1000 or 500) and
exactly one note is removed from the chart. -/
theorem handleHit_frame (s : GameState) (lane : ℕ) (now : ℚ) :
    ((handleHit s lane now).notes = s.notes ∧
      (handleHit s lane now).score = s.score ∧
      (handleHit s lane now).combo = 0) ∨
    ((handleHit s lane now).notes.length + 1 = s.notes.length ∧
      ((handleHit s lane now).score = s.score + 1000 ∨
        (handleHit s lane now).score = s.score + 500) ∧
      (handleHit s lane now).combo = s.combo + 1) := by
  obtain ⟨-, hP3⟩ :=
    findBestAux_sel lane now (s.notes.drop s.idxNextNote) s.idxNextNote none 999
  rcases hP3 with ⟨ho, -⟩ | ⟨j, nn, hj, hr1, -, -, -⟩
  · rw [handleHit_eq_none s lane now ho]; exact Or.inl ⟨rfl, rfl, rfl⟩
  · have hjn : s.notes[s.idxNextNote + j]? = some nn := by
      rw [← List.getElem?_drop]; exact hj
    have hlen : (s.notes.eraseIdx (s.idxNextNote + j)).length + 1 = s.notes.length :=
      List.length_eraseIdx_add_one (List.getElem?_eq_some.mp hjn).1
    rw [handleHit_eq_some s lane now _ nn hr1]
    split_ifs with h1 h2
    · exact Or.inr ⟨hlen, Or.inl rfl, rfl⟩
    · exact Or.inr ⟨hlen, Or.inr rfl, rfl⟩
    · exact Or.inl ⟨rfl, rfl, rfl⟩

/-- Counterexample to C6 as stated: a Perfect hit updates *both* the score
and the combo in the same input event, so "exactly one of {score, combo}
updates" fails. -/
theorem handleHit_double_update :
    (handleHit ⟨[⟨(1:ℚ)/2, 0⟩], 0, 0, 0, true⟩ 0 (1/2)).score ≠
        (⟨[⟨(1:ℚ)/2, 0⟩], 0, 0, 0, true⟩ : GameState).score ∧
    (handleHit ⟨[⟨(1:ℚ)/2, 0⟩], 0, 0, 0, true⟩ 0 (1/2)).combo ≠
        (⟨[⟨(1:ℚ)/2, 0⟩], 0, 0, 0, true⟩ : GameState).combo := by
  norm_num [handleHit, findBestAux]

/-- C5, evaluated at its failing input. The synthesized chart is one shared mutable
array: a Perfect hit splices a note out of it, `stop` only clears the
playing flag, and a second `start` resets score/combo/cursor but does not
restore the chart, so the replay session starts with the consumed note
missing instead of a fresh copy of the full chart. -/
theorem stop_start_replay_bug :
    startState (stopState (handleHit (startState
        ⟨[⟨(1:ℚ)/2, 0⟩, ⟨1, 1⟩], 0, 0, 0, false⟩) 0 (1/2)))
      = ⟨[⟨1, 1⟩], 0, 0, 0, true⟩ ∧
    (⟨[⟨1, 1⟩], 0, 0, 0, true⟩ : GameState).notes
      ≠ [⟨(1:ℚ)/2, 0⟩, ⟨1, 1⟩] := by
  constructor
  · norm_num [handleHit, findBestAux, startState, stopState, List.eraseIdx]
  · simp

/-- C10. The judgment cursor `idxNextNote` is set to 0 by the start
handler and no judgment-engine operation ever writes it: `handleHit` and
`stop` preserve it, so after any sequence of press events of a session it
is still 0 (trivially monotone), and every press scans from index 0. -/
theorem cursor_stays_zero (s0 : GameState) (evts : List (ℕ × ℚ)) :
    (startState s0).idxNextNote = 0 ∧
    (∀ (s : GameState) (lane : ℕ) (now : ℚ),
        (handleHit s lane now).idxNextNote = s.idxNextNote) ∧
    (∀ s : GameState, (stopState s).idxNextNote = s.idxNextNote) ∧
    (evts.foldl (fun st e => handleHit st e.1 e.2) (startState s0)).idxNextNote
      = 0 := by
  have hpres : ∀ (s : GameState) (lane : ℕ) (now : ℚ),
      (handleHit s lane now).idxNextNote = s.idxNextNote := by
    intro s lane now
    rcases h : (findBestAux lane now (s.notes.drop s.idxNextNote)
        s.idxNextNote none 999).1 with _ | ⟨i, n⟩
    · rw [handleHit_eq_none s lane now h]
    · rw [handleHit_eq_some s lane now i n h]; split_ifs <;> rfl
  have hfold : ∀ (l : List (ℕ × ℚ)) (s : GameState),
      (l.foldl (fun st e => handleHit st e.1 e.2) s).idxNextNote = s.idxNextNote := by
    intro l
    induction l with
    | nil => intro s; rfl
    | cons e tl ih => intro s; rw [List.foldl_cons, ih, hpres]
  exact ⟨rfl, hpres, fun _ => rfl, (hfold evts (startState s0)).trans rfl⟩

/-! ## Envelope extractor (src/main.js lines 71-80, `analyzeBtn` handler) -/

/-- Window starts of the envelope loop `for(let i=0; i<raw.length-win; i+=step)`
(line 75) with the source's constants `win = 1024`, `step = 512`: collect `i`
while `i < bound`, stepping by 512.  The `fuel` argument only makes the
recursion structural; the loop runs at most `bound ≤ fuel` times, so the
list produced is decided by the source's exit condition alone. -/
def envStartsAux : ℕ → ℕ → ℕ → List ℕ
  | 0, _, _ => []
  | fuel+1, i, bound => if i < bound then i :: envStartsAux fuel (i+512) bound else []

/-- The window starts for a buffer of `len` samples; the loop bound is
`raw.length - win` (truncated at 0, as the JS loop body never runs when
`raw.length - win` is negative or zero). -/
def envStarts (len : ℕ) : List ℕ := envStartsAux len 0 (len - 1024)

/-- One loop body iteration (lines 76-78): `sum += s*s` over the 1024-sample
window at `i`, then `sum/win`.  Out-of-range reads cannot happen (the loop
bound keeps `i+j` in range); `getD _ 0` is the in-range element. -/
def winMean (samples : List ℚ) (i : ℕ) : ℚ :=
  ((List.range 1024).map (fun j => samples.getD (i+j) 0 ^ 2)).sum / 1024

/-- The energy envelope (line 78: `env.push(Math.sqrt(sum/win))`): the real
square root of each window's mean square. -/
noncomputable def envelope (samples : List ℚ) : List ℝ :=
  (envStarts samples.length).map (fun i => Real.sqrt (winMean samples i))

/-- Closed form of the loop: with enough fuel, the collected starts are
`i, i+512, i+1024, …`, one per step while below `bound` — that is,
`⌈(bound - i)/512⌉` of them. -/
theorem envStartsAux_eq : ∀ (fuel i bound : ℕ), bound - i ≤ fuel →
    envStartsAux fuel i bound
      = (List.range (((bound - i) + 511) / 512)).map (fun k => i + 512 * k) := by
  intro fuel
  induction fuel with
  | zero =>
    intro i bound h
    have hb : bound - i = 0 := Nat.le_zero.mp h
    rw [envStartsAux, hb]
    norm_num
  | succ fuel ih =>
    intro i bound h
    by_cases hc : i < bound
    · have hcount : ((bound - i) + 511) / 512 = ((bound - (i+512)) + 511) / 512 + 1 := by
        omega
      rw [envStartsAux, if_pos hc, ih (i+512) bound (by omega), hcount,
        List.range_succ_eq_map, List.map_cons, List.map_map]
      have h0 : i + 512 * 0 = i := by ring
      have h1 : ((fun k => i + 512 * k) ∘ Nat.succ) = (fun k => i + 512 + 512 * k) := by
        funext k
        simp only [Function.comp_apply, Nat.succ_eq_add_one]
        ring
      rw [h0, h1]
    · have hb : bound - i = 0 := by omega
      rw [envStartsAux, if_neg hc, hb]
      norm_num

/-- C3, amended. The envelope has one element
`sqrt(mean(samples[i..i+1024]^2))` per window start `i = 512k`, and its
length is `⌈(len - 1024)/512⌉` — equivalently `⌊(len-1024-1)/512⌋ + 1` for
`len > 1024` and `0` otherwise — not `⌊(len - 1024)/512⌋`.  A buffer
shorter than one window yields the empty envelope, not an error. -/
theorem envelope_spec (samples : List ℚ) :
    envelope samples
      = (List.range ((samples.length - 1024 + 511) / 512)).map
          (fun k => Real.sqrt (winMean samples (512 * k))) ∧
    (envelope samples).length = (samples.length - 1024 + 511) / 512 ∧
    (samples.length < 1024 → envelope samples = []) := by
  have hs : envStarts samples.length
      = (List.range ((samples.length - 1024 + 511) / 512)).map (fun k => 512 * k) := by
    rw [envStarts, envStartsAux_eq samples.length 0 (samples.length - 1024) (by omega)]
    simp
  have h1 : envelope samples
      = (List.range ((samples.length - 1024 + 511) / 512)).map
          (fun k => Real.sqrt (winMean samples (512 * k))) := by
    rw [envelope, hs, List.map_map]
    rfl
  refine ⟨h1, by rw [h1, List.length_map, List.length_range], fun hlt => ?_⟩
  rw [h1]
  have : (samples.length - 1024 + 511) / 512 = 0 := by omega
  rw [this]
  rfl

/-- C3, counterexample. For a 1537-sample buffer the loop
`for(i=0; i<1537-1024; i+=512)` runs at `i = 0` and `i = 512`, so the
envelope has 2 elements, while `⌊(len - window)/step⌋ = ⌊513/512⌋ = 1`. -/
theorem envelope_length_counterexample :
    (envelope (List.replicate 1537 (0:ℚ))).length = 2 ∧ (1537 - 1024) / 512 = 1 := by
  constructor
  · rw [envelope, List.length_map, envStarts, List.length_replicate,
      envStartsAux_eq 1537 0 (1537 - 1024) (by norm_num), List.length_map,
      List.length_range]
  · rfl

/-! ## Onset detector (src/main.js lines 82-102, `analyzeBtn` handler).
The detector consumes the envelope values as given; we state its
properties over an arbitrary rational envelope. -/

/-- Flux of lines 83-86: `diffs[i-1] = max(0, env[i] - env[i-1])`. -/
def fluxOf (env : List ℚ) : List ℚ :=
  (env.zip env.tail).map (fun p => max 0 (p.2 - p.1))

/-- Normalisation (lines 88-89): `norm = diffs.map(d => d / (maxd || 1))`.
`Math.max(...diffs)` over the non-negative flux equals `foldr max 0` for a
non-empty list; for an empty `diffs` both the source and the model produce
an empty `norm`, so the `-Infinity` of `Math.max()` is irrelevant.  The
`maxd || 1` guard (divide by 1 when the maximum is 0) is the `if`. -/
def normFlux (env : List ℚ) : List ℚ :=
  (fluxOf env).map (fun d => d / (if (fluxOf env).foldr max 0 = 0 then 1
                                  else (fluxOf env).foldr max 0))

/-- Candidate onset times (lines 92-98): index `i` is a candidate when
`norm[i] > thresh`; its time in seconds is `(i+1)*step/sampleRate` with
`step = 512`. -/
def onsetCandidates (norm : List ℚ) (thresh sampleRate : ℚ) : List ℚ :=
  ((List.range norm.length).filter (fun i => decide (thresh < norm.getD i 0))).map
    (fun i : ℕ => ((i:ℚ) + 1) * 512 / sampleRate)

/-- The 0.12 s separation filter (line 100): keep a candidate when there is
no previously accepted onset or `sec - last > 0.12`; rejected candidates do
not update the last accepted onset (first-candidate-wins). -/
def greedyGapAux : Option ℚ → List ℚ → List ℚ
  | _, [] => []
  | none, x :: xs => x :: greedyGapAux (some x) xs
  | some p, x :: xs =>
    if 12/100 < x - p then x :: greedyGapAux (some x) xs
    else greedyGapAux (some p) xs

/-- The full onset detector (lines 82-102): threshold `0.18 / sens` applied
to the normalised flux, candidates converted to seconds, then the gap
filter.  The source interleaves the threshold test and the gap test in one
loop; since the gap test only consults the last *accepted* onset, this is
the same computation. -/
def detectOnsets (env : List ℚ) (sens sampleRate : ℚ) : List ℚ :=
  greedyGapAux none (onsetCandidates (normFlux env) (18/100 / sens) sampleRate)

/-- Every onset the gap filter emits after state `some p` keeps all
consecutive gaps above 0.12 s, including the gap from `p`. -/
theorem greedyGapAux_chain (l : List ℚ) :
    (∀ p : ℚ, List.Chain (fun a b => 12/100 < b - a) p (greedyGapAux (some p) l)) ∧
    List.Chain' (fun a b => 12/100 < b - a) (greedyGapAux none l) := by
  induction l with
  | nil => exact ⟨fun p => List.Chain.nil, List.chain'_nil⟩
  | cons x xs ih =>
    have hsome : ∀ p : ℚ,
        List.Chain (fun a b => 12/100 < b - a) p (greedyGapAux (some p) (x :: xs)) := by
      intro p
      rw [greedyGapAux]
      split_ifs with hgap
      · exact List.Chain.cons hgap (ih.1 x)
      · exact ih.1 p
    refine ⟨hsome, ?_⟩
    rw [greedyGapAux]
    exact ih.1 x

/-- The gap filter only discards: its output is a sublist of its input. -/
theorem greedyGapAux_sublist :
    ∀ (l : List ℚ) (p : Option ℚ), (greedyGapAux p l).Sublist l := by
  intro l
  induction l with
  | nil => intro p; cases p <;> simp [greedyGapAux]
  | cons x xs ih =>
    intro p
    cases p with
    | none =>
      rw [greedyGapAux]
      exact (ih (some x)).cons₂ x
    | some q =>
      rw [greedyGapAux]
      split_ifs with h
      · exact (ih (some x)).cons₂ x
      · exact (ih (some q)).cons x

/-- C4. Every onset sequence the detector produces has consecutive
elements more than 0.12 s apart, is in particular strictly increasing,
and consists only of threshold-passing candidates (the gap filter only
discards candidates) — for any envelope, sensitivity and sample rate. -/
theorem detectOnsets_spacing (env : List ℚ) (sens sampleRate : ℚ) :
    List.Chain' (fun a b => 12/100 < b - a) (detectOnsets env sens sampleRate) ∧
    List.Sorted (· < ·) (detectOnsets env sens sampleRate) ∧
    (detectOnsets env sens sampleRate).Sublist
      (onsetCandidates (normFlux env) (18/100 / sens) sampleRate) := by
  have hc := (greedyGapAux_chain
    (onsetCandidates (normFlux env) (18/100 / sens) sampleRate)).2
  refine ⟨hc, ?_, greedyGapAux_sublist _ _⟩
  have hlt : List.Chain' (· < ·) (detectOnsets env sens sampleRate) :=
    hc.imp (fun a b hab => by linarith)
  exact List.chain'_iff_pairwise.mp hlt

/-- Monotonicity of the gap filter in its previous-onset state, on sorted
input: a smaller previous onset never yields fewer onsets, and moving the
previous onset up to a lower bound of the list costs at most one onset. -/
theorem greedy_len_mono : ∀ (l : List ℚ), l.Sorted (· ≤ ·) →
    (∀ p q : ℚ, q ≤ p →
      (greedyGapAux (some p) l).length ≤ (greedyGapAux (some q) l).length) ∧
    (∀ p x : ℚ, p ≤ x → (∀ y ∈ l, x ≤ y) →
      (greedyGapAux (some p) l).length ≤ (greedyGapAux (some x) l).length + 1) := by
  intro l
  induction l with
  | nil =>
    intro _
    exact ⟨fun p q _ => le_refl _, fun p x _ _ => Nat.le_succ_of_le (le_refl _)⟩
  | cons z zs ih =>
    intro hs
    obtain ⟨hz, hzs⟩ := List.sorted_cons.mp hs
    obtain ⟨ihA, ihB⟩ := ih hzs
    constructor
    · intro p q hqp
      rw [greedyGapAux, greedyGapAux]
      by_cases h1 : 12/100 < z - p
      · rw [if_pos h1, if_pos (show 12/100 < z - q by linarith)]
      · by_cases h2 : 12/100 < z - q
        · rw [if_neg h1, if_pos h2]
          simp only [List.length_cons]
          rcases le_or_lt p z with hpz | hzp
          · exact ihB p z hpz hz
          · exact Nat.le_succ_of_le (ihA p z (le_of_lt hzp))
        · rw [if_neg h1, if_neg h2]
          exact ihA p q hqp
    · intro p x hpx hxall
      have hxz : x ≤ z := hxall z (List.mem_cons_self _ _)
      rw [greedyGapAux, greedyGapAux]
      by_cases h1 : 12/100 < z - x
      · rw [if_pos (show 12/100 < z - p by linarith), if_pos h1]
        exact Nat.le_succ _
      · by_cases h2 : 12/100 < z - p
        · rw [if_pos h2, if_neg h1]
          simp only [List.length_cons]
          exact Nat.succ_le_succ (ihA z x hxz)
        · rw [if_neg h2, if_neg h1]
          exact ihB p x hpx (fun y hy => le_trans hxz (hz y hy))

/-- Starting the gap filter with no previous onset instead of a lower
bound of the (sorted) list costs at most one onset. -/
theorem greedy_none_le_some (l : List ℚ) (hs : l.Sorted (· ≤ ·)) (y : ℚ)
    (hy : ∀ z ∈ l, y ≤ z) :
    (greedyGapAux none l).length ≤ (greedyGapAux (some y) l).length + 1 := by
  cases l with
  | nil => exact Nat.le_succ _
  | cons z zs =>
    obtain ⟨hz, hzs⟩ := List.sorted_cons.mp hs
    have hyz : y ≤ z := hy z (List.mem_cons_self _ _)
    rw [greedyGapAux, greedyGapAux]
    by_cases h1 : 12/100 < z - y
    · rw [if_pos h1]
      exact Nat.le_succ _
    · rw [if_neg h1]
      simp only [List.length_cons]
      exact Nat.succ_le_succ ((greedy_len_mono zs hzs).1 z y hyz)

/-- Removing candidates (a sublist, the input sorted) never increases the
number of onsets the gap filter accepts, for any common starting state. -/
theorem greedy_sublist_some : ∀ {s t : List ℚ}, s.Sublist t → t.Sorted (· ≤ ·) →
    ∀ p : ℚ, (greedyGapAux (some p) s).length ≤ (greedyGapAux (some p) t).length := by
  intro s t hsub
  induction hsub with
  | slnil => intro _ p; exact le_refl _
  | cons y hsub ih =>
    intro hts p
    obtain ⟨hyall, ht'⟩ := List.sorted_cons.mp hts
    rw [greedyGapAux]
    by_cases h1 : 12/100 < y - p
    · rw [if_pos h1]
      simp only [List.length_cons]
      exact le_trans (ih ht' p) ((greedy_len_mono _ ht').2 p y (by linarith) hyall)
    · rw [if_neg h1]
      exact ih ht' p
  | cons₂ y hsub ih =>
    intro hts p
    obtain ⟨hyall, ht'⟩ := List.sorted_cons.mp hts
    rw [greedyGapAux, greedyGapAux]
    by_cases h1 : 12/100 < y - p
    · rw [if_pos h1, if_pos h1]
      simp only [List.length_cons]
      exact Nat.succ_le_succ (ih ht' y)
    · rw [if_neg h1, if_neg h1]
      exact ih ht' p

/-- Removing candidates (a sublist, the input sorted) never increases the
number of onsets accepted from the initial (no previous onset) state. -/
theorem greedy_sublist_none : ∀ {s t : List ℚ}, s.Sublist t → t.Sorted (· ≤ ·) →
    (greedyGapAux none s).length ≤ (greedyGapAux none t).length := by
  intro s t hsub
  induction hsub with
  | slnil => intro _; exact le_refl _
  | cons y hsub ih =>
    intro hts
    obtain ⟨hyall, ht'⟩ := List.sorted_cons.mp hts
    rw [greedyGapAux]
    simp only [List.length_cons]
    exact le_trans (ih ht') (greedy_none_le_some _ ht' y hyall)
  | cons₂ y hsub ih =>
    intro hts
    obtain ⟨hyall, ht'⟩ := List.sorted_cons.mp hts
    rw [greedyGapAux, greedyGapAux]
    simp only [List.length_cons]
    exact Nat.succ_le_succ (greedy_sublist_some hsub ht' y)

/-- The candidate times `(i+1)*512/sampleRate` are sorted in the index. -/
theorem onsetCandidates_sorted (norm : List ℚ) (thresh sampleRate : ℚ)
    (hr : 0 < sampleRate) :
    (onsetCandidates norm thresh sampleRate).Sorted (· ≤ ·) := by
  apply List.pairwise_map.mpr
  have h1 : ((List.range norm.length).filter
      (fun i => decide (thresh < norm.getD i 0))).Pairwise (· < ·) :=
    (List.pairwise_lt_range _).filter _
  refine h1.imp (fun hij => ?_)
  rename_i i j
  have hij' : (i:ℚ) ≤ (j:ℚ) := by exact_mod_cast le_of_lt hij
  have hmul : ((i:ℚ) + 1) * 512 ≤ ((j:ℚ) + 1) * 512 := by linarith
  exact (div_le_div_iff_of_pos_right hr).mpr hmul

/-- A higher threshold filters a sublist of the candidates of a lower one. -/
theorem onsetCandidates_sublist (norm : List ℚ) (t1 t2 sampleRate : ℚ)
    (h : t2 ≤ t1) :
    (onsetCandidates norm t1 sampleRate).Sublist
      (onsetCandidates norm t2 sampleRate) := by
  apply List.Sublist.map
  apply List.monotone_filter_right
  intro i hi
  simp only [decide_eq_true_eq] at hi ⊢
  linarith

/-- C9. For a fixed envelope and sample rate, raising the sensitivity
from `k1` to `k2 > k1` (both positive) lowers the threshold `0.18/k` and
never yields fewer accepted onsets. -/
theorem detectOnsets_mono (env : List ℚ) (k1 k2 sampleRate : ℚ)
    (h0 : 0 < k1) (h12 : k1 < k2) (hr : 0 < sampleRate) :
    (detectOnsets env k1 sampleRate).length
      ≤ (detectOnsets env k2 sampleRate).length := by
  have hth : 18/100 / k2 ≤ 18/100 / k1 :=
    div_le_div_of_nonneg_left (by norm_num) h0 (le_of_lt h12)
  exact greedy_sublist_none
    (onsetCandidates_sublist (normFlux env) _ _ _ hth)
    (onsetCandidates_sorted (normFlux env) _ _ hr)

/-- Witness for C9 at a concrete envelope and sensitivities 1 < 2. -/
theorem detectOnsets_mono_witness :
    (0:ℚ) < 1 ∧ (1:ℚ) < 2 ∧ (0:ℚ) < 44100 ∧
    (detectOnsets [0, 1, 0] 1 44100).length
      ≤ (detectOnsets [0, 1, 0] 2 44100).length :=
  ⟨by norm_num, by norm_num, by norm_num,
    detectOnsets_mono [0, 1, 0] 1 2 44100 (by norm_num) (by norm_num) (by norm_num)⟩

/-! ## Note synthesizer (src/main.js lines 121-159, `genNotesBtn` handler) -/

/-- Rounding of `x.toFixed(3)` as used in the dedup key (line 151), for the
non-negative times that occur in charts: the integer numerator of the
closest multiple of 1/1000, ties upward — that is `⌊1000x + 1/2⌋`. -/
def round3 (x : ℚ) : ℤ := ⌊x * 1000 + 1/2⌋

/-- The dedup key of line 151: the pair of the rounded time (`toFixed(3)`) and the lane. -/
def jsKey (n : Note) : ℤ × ℕ := (round3 n.time, n.lane)

/-- One step of `merged[key] = c` on a JS object (line 152): an existing
key keeps its position and gets the new value (last write wins), a new
key is appended; JS objects with string keys preserve first-insertion
order, which `Object.values` then reads back. -/
def insertKeyed (acc : List ((ℤ × ℕ) × Note)) (c : Note) : List ((ℤ × ℕ) × Note) :=
  if ∃ p ∈ acc, p.1 = jsKey c then
    acc.map (fun p => if p.1 = jsKey c then (p.1, c) else p)
  else acc ++ [(jsKey c, c)]

/-- Dedup of the candidate list (lines 149-154): insert every candidate
into the keyed object, then read back `Object.values(merged)`. -/
def dedupLastWins (l : List Note) : List Note :=
  (l.foldl insertKeyed []).map (fun p => p.2)

/-- Stable insertion used to model `Array.prototype.sort` with comparator
`(a,b) => a.time - b.time` (line 154): ES2019 sort is stable, so a note
goes after every note with time less than or equal to its own. -/
def insertNote (n : Note) : List Note → List Note
  | [] => [n]
  | m :: ms => if n.time < m.time then n :: m :: ms else m :: insertNote n ms

/-- Stable sort of the merged candidates by ascending time (line 154). -/
def sortNotes (l : List Note) : List Note :=
  l.foldl (fun acc n => insertNote n acc) []

/-- The nearest-grid linear scan of lines 135-140: running pair
`(nearest, mind)` starting from `(null, 999)`, updated when
`|g - t| < mind`. -/
def nearestFold (t : ℚ) (grid : List ℚ) (acc : Option ℚ × ℚ) : Option ℚ × ℚ :=
  grid.foldl (fun a g => if |g - t| < a.2 then (some g, |g - t|) else a) acc

/-- One iteration of the onset loop (lines 133-145): find the nearest grid
time, skip the onset when `mind > snapWindow`, otherwise emit
`{time: nearest, lane: freqToLane(t)}` with the lane mapper abstract (the
source of `freqToLane` lies beyond the end of the provided file, and the
note only records its value at `t`).  When the scan found no grid time at
all the source would push a `null` time; that needs `snapWindow ≥ 999`
and an empty-ish grid and is modelled as time 0 (see `snapOnset_spec`,
which excludes it via `snapWindow < 999`). -/
def snapOnset (grid : List ℚ) (snapWindow : ℚ) (mapper : ℚ → ℕ) (t : ℚ) :
    Option Note :=
  if snapWindow < (nearestFold t grid (none, 999)).2 then none
  else
    match (nearestFold t grid (none, 999)).1 with
    | some g => some ⟨g, mapper t⟩
    | none => some ⟨0, mapper t⟩

/-- Modelled from the spec: `buildBeatGrid` is called at src/main.js:127
but its definition lies beyond the end of the provided source file.
Spec §4.5: `t_n = n * (60/bpm) * (4/d)` for `n = 0, 1, …` while
`t_n ≤ duration`; degenerate input (`bpm ≤ 0`) is rejected (modelled as
the empty grid). -/
def buildBeatGrid (bpm subdiv duration : ℚ) : List ℚ :=
  if 0 < bpm ∧ 0 < subdiv ∧ 0 ≤ duration then
    (List.range (Nat.floor (duration / ((60 / bpm) * (4 / subdiv))) + 1)).map
      (fun n : ℕ => (n:ℚ) * ((60 / bpm) * (4 / subdiv)))
  else []

/-- The whole `genNotesBtn` handler (lines 121-159): grid from
`bpmEstimate || 120`, snap window `(60/(bpmEstimate||120))/(subdiv/4)/2`
(line 129), snap each onset, dedup by `(time.toFixed(3), lane)`, sort by
time.  The lane mapper is a parameter (`freqToLane`'s body lies beyond
the end of the provided source). -/
def genNotesHandler (onsets : List ℚ) (bpmEst : Option ℚ) (subdiv duration : ℚ)
    (mapper : ℚ → ℕ) : List Note :=
  sortNotes (dedupLastWins (onsets.filterMap
    (snapOnset (buildBeatGrid (bpmEst.getD 120) subdiv duration)
      ((60 / bpmEst.getD 120) / (subdiv / 4) / 2) mapper)))

/-- The linear scan keeps a running minimum: the final distance bounds the
initial one and every grid distance, and the final pair is either the
initial accumulator or a grid time together with its true distance. -/
theorem nearestFold_spec (t : ℚ) : ∀ (grid : List ℚ) (o : Option ℚ) (m : ℚ),
    (nearestFold t grid (o, m)).2 ≤ m ∧
    (∀ g ∈ grid, (nearestFold t grid (o, m)).2 ≤ |g - t|) ∧
    ((nearestFold t grid (o, m)) = (o, m) ∨
      ∃ g ∈ grid, (nearestFold t grid (o, m)).1 = some g ∧
        (nearestFold t grid (o, m)).2 = |g - t|) := by
  intro grid
  induction grid with
  | nil =>
    intro o m
    exact ⟨le_refl _, fun g hg => absurd hg (List.not_mem_nil g), Or.inl rfl⟩
  | cons g0 gs ih =>
    intro o m
    by_cases h0 : |g0 - t| < m
    · rw [show nearestFold t (g0 :: gs) (o, m)
            = nearestFold t gs (some g0, |g0 - t|) by
          simp [nearestFold, h0]]
      obtain ⟨h1, h2, h3⟩ := ih (some g0) |g0 - t|
      refine ⟨le_of_lt (lt_of_le_of_lt h1 h0), ?_, ?_⟩
      · intro g hg
        rcases List.mem_cons.mp hg with rfl | hg'
        · exact h1
        · exact h2 g hg'
      · rcases h3 with he | ⟨g, hg, hfst, hsnd⟩
        · exact Or.inr ⟨g0, List.mem_cons_self _ _, by rw [he], by rw [he]⟩
        · exact Or.inr ⟨g, List.mem_cons_of_mem _ hg, hfst, hsnd⟩
    · rw [show nearestFold t (g0 :: gs) (o, m) = nearestFold t gs (o, m) by
          simp [nearestFold, h0]]
      obtain ⟨h1, h2, h3⟩ := ih o m
      refine ⟨h1, ?_, ?_⟩
      · intro g hg
        rcases List.mem_cons.mp hg with rfl | hg'
        · exact le_trans h1 (not_lt.mp h0)
        · exact h2 g hg'
      · rcases h3 with he | ⟨g, hg, hfst, hsnd⟩
        · exact Or.inl he
        · exact Or.inr ⟨g, List.mem_cons_of_mem _ hg, hfst, hsnd⟩

/-- C7. For every onset `t` (with any snap window below the scan's 999
sentinel, which every real window `(60/bpm)/(d/4)/2` is): an emitted note
carries the lane `mapper t` and a grid time nearest to `t` by absolute
difference, within the snap window; and the onset is discarded exactly
when every grid time is farther than the snap window. -/
theorem snapOnset_spec (grid : List ℚ) (snapWindow : ℚ) (mapper : ℚ → ℕ) (t : ℚ)
    (hsw : snapWindow < 999) :
    (∀ n : Note, snapOnset grid snapWindow mapper t = some n →
      n.lane = mapper t ∧ n.time ∈ grid ∧ |n.time - t| ≤ snapWindow ∧
        ∀ g ∈ grid, |n.time - t| ≤ |g - t|) ∧
    (snapOnset grid snapWindow mapper t = none →
      ∀ g ∈ grid, snapWindow < |g - t|) := by
  obtain ⟨h1, h2, h3⟩ := nearestFold_spec t grid none 999
  constructor
  · intro n hn
    rw [snapOnset] at hn
    split_ifs at hn with hfar
    rcases h3 with he | ⟨g, hg, hfst, hsnd⟩
    · rw [he] at hn hfar
      exact absurd hsw (not_lt.mpr (le_of_not_lt hfar))
    · rw [hfst] at hn
      simp only [Option.some.injEq] at hn
      subst hn
      refine ⟨rfl, hg, ?_, ?_⟩
      · simpa [hsnd] using not_lt.mp hfar
      · intro g' hg'
        simpa [hsnd] using h2 g' hg'
  · intro hn g hg
    rw [snapOnset] at hn
    split_ifs at hn with hfar
    · exact lt_of_lt_of_le hfar (h2 g hg)
    · rcases hno : (nearestFold t grid (none, 999)).1 with _ | g'
      · rw [hno] at hn; exact absurd hn (by simp)
      · rw [hno] at hn; exact absurd hn (by simp)

/-- Witness for C7: grid `[0, 1/2]`, snap window 1/4, onset at 1/10 snaps
to grid time 0, keeping the mapped lane. -/
theorem snapOnset_spec_witness :
    (1:ℚ)/4 < 999 ∧
    snapOnset [0, 1/2] (1/4) (fun _ => 2) (1/10) = some ⟨0, 2⟩ ∧
    ((0:ℚ) ∈ [(0:ℚ), 1/2] ∧ |(0:ℚ) - 1/10| ≤ 1/4 ∧
      ∀ g ∈ [(0:ℚ), 1/2], |(0:ℚ) - 1/10| ≤ |g - 1/10|) := by
  have hs : snapOnset [0, 1/2] (1/4) (fun _ => 2) (1/10)
      = some ⟨0, 2⟩ := by
    norm_num [snapOnset, nearestFold, abs_of_nonneg, abs_of_nonpos]
  refine ⟨by norm_num, hs, ?_⟩
  obtain ⟨hsome, -⟩ := snapOnset_spec [0, 1/2] (1/4) (fun _ => 2) (1/10)
    (by norm_num)
  obtain ⟨-, hmem, hwin, hmin⟩ := hsome ⟨0, 2⟩ hs
  exact ⟨hmem, hwin, hmin⟩

/-- C8. When tempo estimation reports no estimate (`bpmEstimate` is
`null`), the generator runs with the default 120 BPM in both the beat grid
and the snap window — the chart equals the one generated from an explicit
120 BPM estimate, and generation still produces a chart (never aborts). -/
theorem genNotes_bpm_fallback (onsets : List ℚ) (subdiv duration : ℚ)
    (mapper : ℚ → ℕ) :
    genNotesHandler onsets none subdiv duration mapper
      = sortNotes (dedupLastWins (onsets.filterMap
          (snapOnset (buildBeatGrid 120 subdiv duration)
            ((60 / 120) / (subdiv / 4) / 2) mapper))) ∧
    genNotesHandler onsets none subdiv duration mapper
      = genNotesHandler onsets (some 120) subdiv duration mapper :=
  ⟨rfl, rfl⟩

theorem mem_insertNote (n : Note) :
    ∀ (l : List Note) (b : Note), b ∈ insertNote n l ↔ b = n ∨ b ∈ l := by
  intro l
  induction l with
  | nil => intro b; simp [insertNote]
  | cons m ms ih =>
    intro b
    rw [insertNote]
    split_ifs with h
    all_goals simp only [List.mem_cons, ih]
    all_goals tauto

theorem insertNote_sorted (n : Note) :
    ∀ l : List Note, l.Sorted (fun a b : Note => a.time ≤ b.time) →
      (insertNote n l).Sorted (fun a b : Note => a.time ≤ b.time) := by
  intro l
  induction l with
  | nil => intro _; exact List.sorted_singleton n
  | cons m ms ih =>
    intro hs
    obtain ⟨hm, hms⟩ := List.sorted_cons.mp hs
    rw [insertNote]
    split_ifs with h
    · refine List.sorted_cons.mpr ⟨?_, hs⟩
      intro b hb
      rcases List.mem_cons.mp hb with rfl | hb'
      · exact le_of_lt h
      · exact le_trans (le_of_lt h) (hm b hb')
    · refine List.sorted_cons.mpr ⟨?_, ih hms⟩
      intro b hb
      rcases (mem_insertNote n ms b).mp hb with rfl | hb'
      · exact not_lt.mp h
      · exact hm b hb'

theorem sortNotes_sorted (l : List Note) :
    (sortNotes l).Sorted (fun a b : Note => a.time ≤ b.time) := by
  have key : ∀ (l acc : List Note), acc.Sorted (fun a b : Note => a.time ≤ b.time) →
      (l.foldl (fun acc n => insertNote n acc) acc).Sorted
        (fun a b : Note => a.time ≤ b.time) := by
    intro l
    induction l with
    | nil => intro acc h; exact h
    | cons x xs ih =>
      intro acc h
      rw [List.foldl_cons]
      exact ih _ (insertNote_sorted x acc h)
  exact key l [] List.sorted_nil

theorem insertNote_perm (n : Note) :
    ∀ l : List Note, (insertNote n l).Perm (n :: l) := by
  intro l
  induction l with
  | nil => exact List.Perm.refl _
  | cons m ms ih =>
    rw [insertNote]
    split_ifs with h
    · exact List.Perm.refl _
    · exact List.Perm.trans (ih.cons m) (List.Perm.swap n m ms)

theorem sortNotes_perm (l : List Note) : (sortNotes l).Perm l := by
  have key : ∀ (l acc : List Note),
      (l.foldl (fun acc n => insertNote n acc) acc).Perm (acc ++ l) := by
    intro l
    induction l with
    | nil => intro acc; simp
    | cons x xs ih =>
      intro acc
      rw [List.foldl_cons]
      refine List.Perm.trans (ih (insertNote x acc)) ?_
      refine List.Perm.trans (((insertNote_perm x acc).append_right xs)) ?_
      exact List.perm_middle.symm
  simpa using key l []

/-- Invariant of the JS-object model: pairwise-distinct keys, and every
stored key is the key of its stored note. -/
def KeyedOK (acc : List ((ℤ × ℕ) × Note)) : Prop :=
  acc.Pairwise (fun p q => p.1 ≠ q.1) ∧ ∀ p ∈ acc, p.1 = jsKey p.2

theorem insertKeyed_ok (acc : List ((ℤ × ℕ) × Note)) (c : Note)
    (h : KeyedOK acc) : KeyedOK (insertKeyed acc c) := by
  obtain ⟨hpw, hhon⟩ := h
  rw [insertKeyed]
  split_ifs with hex
  · have hfst : ∀ p : (ℤ × ℕ) × Note,
        (if p.1 = jsKey c then (p.1, c) else p).1 = p.1 := by
      intro p; split_ifs <;> rfl
    constructor
    · rw [List.pairwise_map]
      exact hpw.imp (fun {p q} hne => by rw [hfst p, hfst q]; exact hne)
    · intro p hp
      obtain ⟨q, hq, rfl⟩ := List.mem_map.mp hp
      by_cases hqk : q.1 = jsKey c
      · simp only [if_pos hqk]
        exact hqk
      · simp only [if_neg hqk]
        exact hhon q hq
  · push_neg at hex
    constructor
    · rw [List.pairwise_append]
      refine ⟨hpw, List.pairwise_singleton _ _, ?_⟩
      intro p hp q hq
      rw [List.mem_singleton] at hq
      subst hq
      exact hex p hp
    · intro p hp
      rcases List.mem_append.mp hp with hin | hin
      · exact hhon p hin
      · rw [List.mem_singleton] at hin
        subst hin
        rfl

theorem dedup_keyedOK (l : List Note) : KeyedOK (l.foldl insertKeyed []) := by
  have key : ∀ (l : List Note) (acc : List ((ℤ × ℕ) × Note)),
      KeyedOK acc → KeyedOK (l.foldl insertKeyed acc) := by
    intro l
    induction l with
    | nil => intro acc h; exact h
    | cons x xs ih =>
      intro acc h
      rw [List.foldl_cons]
      exact ih _ (insertKeyed_ok acc x h)
  exact key l [] ⟨List.Pairwise.nil, fun p hp => absurd hp (List.not_mem_nil p)⟩

theorem dedupLastWins_pairwise (l : List Note) :
    (dedupLastWins l).Pairwise (fun a b : Note => jsKey a ≠ jsKey b) := by
  obtain ⟨hpw, hhon⟩ := dedup_keyedOK l
  rw [dedupLastWins, List.pairwise_map]
  refine List.Pairwise.imp_of_mem ?_ hpw
  intro p q hp hq hne
  rw [← hhon p hp, ← hhon q hq]
  exact hne

/-- C2, amended. Every synthesized chart is free of duplicate
`(time, lane)` pairs and is sorted by non-decreasing time.  (Notes sharing
a time keep the candidates' insertion order — see the counterexample —
rather than being ordered by lane.) -/
theorem genNotes_wellformed (onsets : List ℚ) (bpmEst : Option ℚ)
    (subdiv duration : ℚ) (mapper : ℚ → ℕ) :
    (genNotesHandler onsets bpmEst subdiv duration mapper).Sorted
      (fun a b : Note => a.time ≤ b.time) ∧
    (genNotesHandler onsets bpmEst subdiv duration mapper).Pairwise
      (fun a b : Note => ¬(a.time = b.time ∧ a.lane = b.lane)) := by
  constructor
  · exact sortNotes_sorted _
  · have hperm := sortNotes_perm (dedupLastWins ((onsets.filterMap
      (snapOnset (buildBeatGrid (bpmEst.getD 120) subdiv duration)
        ((60 / bpmEst.getD 120) / (subdiv / 4) / 2) mapper))))
    have hpw := dedupLastWins_pairwise ((onsets.filterMap
      (snapOnset (buildBeatGrid (bpmEst.getD 120) subdiv duration)
        ((60 / bpmEst.getD 120) / (subdiv / 4) / 2) mapper)))
    have h2 := (List.Perm.pairwise_iff
      (fun {a b : Note} (h : jsKey a ≠ jsKey b) => h.symm) hperm).mpr hpw
    exact h2.imp (fun {a b} hne hab => hne (by
      rw [jsKey, jsKey, hab.1, hab.2]))

/-- C2, counterexample. Two onsets (0.1 s and 0.2 s) snapping to the
same grid time 0 with lanes 3 and then 1: the key `(0.000, 3)` differs
from `(0.000, 1)` so both notes survive dedup, and the stable sort by
`a.time - b.time` keeps insertion order, producing lane 3 *before* lane 1
at equal time — the chart is not ordered by lane ascending on time ties. -/
theorem genNotes_tie_counterexample :
    genNotesHandler [1/10, 2/10] none 4 0
        (fun t => if t ≤ 1/10 then 3 else 1)
      = [⟨0, 3⟩, ⟨0, 1⟩] ∧
    ¬ (genNotesHandler [1/10, 2/10] none 4 0
        (fun t => if t ≤ 1/10 then 3 else 1)).Pairwise
        (fun a b : Note => a.time < b.time ∨ (a.time = b.time ∧ a.lane ≤ b.lane)) := by
  have hgrid : buildBeatGrid 120 4 0 = [0] := by
    rw [buildBeatGrid, if_pos (by norm_num)]
    norm_num [List.range_succ]
  have hs1 : snapOnset [0] (1/4) (fun t : ℚ => if t ≤ 1/10 then 3 else 1) (1/10)
      = some ⟨0, 3⟩ := by
    norm_num [snapOnset, nearestFold, abs_of_nonpos, abs_of_nonneg]
  have hs2 : snapOnset [0] (1/4) (fun t : ℚ => if t ≤ 1/10 then 3 else 1) (2/10)
      = some ⟨0, 1⟩ := by
    norm_num [snapOnset, nearestFold, abs_of_nonpos, abs_of_nonneg]
  have hg : genNotesHandler [1/10, 2/10] none 4 0
      (fun t => if t ≤ 1/10 then 3 else 1) = [⟨0, 3⟩, ⟨0, 1⟩] := by
    rw [genNotesHandler,
      show (Option.getD (none : Option ℚ) 120) = 120 from rfl, hgrid,
      show (60 / (120:ℚ)) / ((4:ℚ) / 4) / 2 = 1/4 by norm_num,
      List.filterMap_cons_some hs1, List.filterMap_cons_some hs2,
      List.filterMap_nil]
    norm_num [dedupLastWins, insertKeyed, jsKey, round3, sortNotes, insertNote]
  refine ⟨hg, ?_⟩
  rw [hg]
  intro h
  have := (List.pairwise_cons.mp h).1 ⟨0, 1⟩ (List.mem_singleton.mpr rfl)
  rcases this with h1 | ⟨-, h2⟩
  · exact absurd h1 (by norm_num)
  · exact absurd h2 (by norm_num)

end DMclean
